import Mathlib

/-!
Verification of the nautobot-plugin-golden-config configuration compliance
engine and its persisted data model.

The repository source (`nautobot_golden_config/models.py`) declares the
persisted record shapes (`ConfigCompliance`, `GoldenConfiguration`,
`ComplianceFeature`, `GoldenConfigSettings`); the compliance engine itself
(parser, structural differ, evaluator, renderer) is specified by the
accompanying design document and is modelled here from that specification.
Configuration text is embedded as `List Char` (`String.data`), so every
definition is executable by kernel reduction.
-/

namespace GoldenConfig

/-! ## Configuration trees -/

/-- Modelled from the spec: a `ConfigNode` is one configuration directive,
holding its trimmed line `txt` and its ordered `kids` (nested block).
The non-owning parent back-reference of the spec is represented implicitly
by the tree structure. -/
inductive ConfigNode where
  | node (txt : List Char) (kids : List ConfigNode)

/-- Modelled from the spec: a `ConfigTree` is the ordered sequence of
top-level nodes for one feature scope. -/
abbrev ConfigTree := List ConfigNode

/-- Text of a node. -/
def ConfigNode.txt : ConfigNode → List Char
  | .node t _ => t

/-- Children of a node. -/
def ConfigNode.kids : ConfigNode → List ConfigNode
  | .node _ k => k

mutual
/-- Nesting depth of a node (at least 1). -/
def depthN : ConfigNode → Nat
  | .node _ k => 1 + depthF k
/-- Nesting depth of a forest (0 when empty). -/
def depthF : List ConfigNode → Nat
  | [] => 0
  | c :: cs => max (depthN c) (depthF cs)
end

mutual
/-- Number of nodes in a tree rooted at a node (at least 1). -/
def sizeN : ConfigNode → Nat
  | .node _ k => 1 + sizeF k
/-- Total number of nodes in a forest. -/
def sizeF : List ConfigNode → Nat
  | [] => 0
  | c :: cs => sizeN c + sizeF cs
end

mutual
/-- Boolean structural equality of nodes. -/
def nodeEq : ConfigNode → ConfigNode → Bool
  | .node t1 k1, .node t2 k2 => t1 = t2 && forestEq k1 k2
/-- Boolean structural equality of forests (positional). -/
def forestEq : List ConfigNode → List ConfigNode → Bool
  | [], [] => true
  | a :: as, b :: bs => nodeEq a b && forestEq as bs
  | _, _ => false
end

mutual
/-- Decision procedure for equality of nodes. -/
def nodeDecEq : (a b : ConfigNode) → Decidable (a = b)
  | .node t1 k1, .node t2 k2 =>
    match decEq t1 t2 with
    | isFalse h => isFalse (by intro hc; cases hc; exact h rfl)
    | isTrue h1 =>
      match forestDecEq k1 k2 with
      | isFalse h => isFalse (by intro hc; cases hc; exact h rfl)
      | isTrue h2 => isTrue (by rw [h1, h2])
/-- Decision procedure for equality of forests. -/
def forestDecEq : (a b : List ConfigNode) → Decidable (a = b)
  | [], [] => isTrue rfl
  | [], _ :: _ => isFalse (by intro h; cases h)
  | _ :: _, [] => isFalse (by intro h; cases h)
  | a :: as, b :: bs =>
    match nodeDecEq a b with
    | isFalse h => isFalse (by intro hc; cases hc; exact h rfl)
    | isTrue h1 =>
      match forestDecEq as bs with
      | isFalse h => isFalse (by intro hc; cases hc; exact h rfl)
      | isTrue h2 => isTrue (by rw [h1, h2])
end

instance : DecidableEq ConfigNode := nodeDecEq

/-! ## Config parser (spec 4.1) -/

/-- Whitespace characters trimmed from line ends. -/
def isWsChar (c : Char) : Bool := c = ' ' || c = '\t' || c = '\r'

/-- Split a character list at every newline. -/
def splitNl : List Char → List (List Char)
  | [] => [[]]
  | c :: rest =>
    if c = '\n' then [] :: splitNl rest
    else
      match splitNl rest with
      | [] => [[c]]
      | l :: ls => (c :: l) :: ls

/-- Trim leading and trailing whitespace from a line. -/
def trimChars (l : List Char) : List Char :=
  ((l.dropWhile isWsChar).reverse.dropWhile isWsChar).reverse

/-- Indentation of a line: the number of leading space characters. -/
def indentOf (l : List Char) : Nat := (l.takeWhile (fun c => c = ' ')).length

/-- Line entry for one physical line: `none` for a blank line, otherwise
the indentation together with the trimmed text. -/
def lineEntry (l : List Char) : Option (Nat × List Char) :=
  if trimChars l = [] then none else some (indentOf l, trimChars l)

/-- Modelled from the spec: split raw text into physical lines, keeping for
each non-blank line its indentation and its trimmed text. -/
def toLines (raw : List Char) : List (Nat × List Char) :=
  (splitNl raw).filterMap lineEntry

/-- Modelled from the spec: `ParseError` reports a structurally inconsistent
dedent, carrying the offending indentation and line text. `outOfFuel` is an
artifact of the fuel-based embedding and is unreachable with adequate fuel. -/
inductive ParseError where
  | badIndent (indent : Nat) (txt : List Char)
  | outOfFuel
deriving DecidableEq

/-- Children step of the parser: when the next line is strictly deeper than
the current level, parse it as the start of a nested block via the supplied
continuation `psib`; otherwise there are no children and the lines are left
in place. -/
def parseKids
    (psib : Nat → List (Nat × List Char) →
      Except ParseError (ConfigTree × List (Nat × List Char)))
    (ind : Nat) (rest : List (Nat × List Char)) :
    Except ParseError (ConfigTree × List (Nat × List Char)) :=
  match rest with
  | [] => .ok ([], [])
  | (j, _) :: _ => if ind < j then psib j rest else .ok ([], rest)

/-- Modelled from the spec: recursive-descent block parser. `parseSibF fuel
ind ls` parses the maximal run of sibling nodes at indentation `ind` from
`ls`, together with their nested children (consecutive lines of strictly
greater indentation), and returns the remaining lines, which start with a
dedent below `ind`. A line of indentation strictly between the current level
and a previously opened deeper level is a structurally inconsistent dedent
and yields `ParseError.badIndent`. `fuel` bounds recursion; any
`fuel > ls.length` is adequate. -/
def parseSibF : Nat → Nat → List (Nat × List Char) →
    Except ParseError (ConfigTree × List (Nat × List Char))
  | 0, _, _ => .error .outOfFuel
  | _ + 1, _, [] => .ok ([], [])
  | fuel + 1, ind, (i, t) :: rest =>
    if i < ind then .ok ([], (i, t) :: rest)
    else if ind < i then .error (.badIndent i t)
    else
      match parseKids (parseSibF fuel) ind rest with
      | .error e => .error e
      | .ok (kids, rest1) =>
        match parseSibF fuel ind rest1 with
        | .error e => .error e
        | .ok (sibs, rest2) => .ok (.node t kids :: sibs, rest2)

/-- Modelled from the spec: parse a full line list into the forest of all
top-level directives. The first line fixes the top indentation level; any
leftover dedent below it is a structural inconsistency. -/
def buildFromLines : List (Nat × List Char) → Except ParseError ConfigTree
  | [] => .ok []
  | (i, t) :: rest =>
    match parseSibF (rest.length + 2) i ((i, t) :: rest) with
    | .error e => .error e
    | .ok (ns, []) => .ok ns
    | .ok (_, (j, u) :: _) => .error (.badIndent j u)

/-- Modelled from the spec: parse raw configuration text into the forest of
all top-level directives with their subtrees. -/
def buildForest (raw : List Char) : Except ParseError ConfigTree :=
  buildFromLines (toLines raw)

/-- Boolean test that `p` is an initial segment of `l`. -/
def hasPref : List Char → List Char → Bool
  | [], _ => true
  | _ :: _, [] => false
  | p :: ps, c :: cs => p = c && hasPref ps cs

/-- Modelled from the spec: `parse raw mc` parses the raw text and keeps
exactly the top-level directives whose text starts with the feature's
`match_config` string `mc` (case-sensitive), with their whole subtrees.
When no top-level line matches, the result is the empty tree, not an
error. -/
def parse (raw mc : String) : Except ParseError ConfigTree :=
  match buildForest raw.data with
  | .error e => .error e
  | .ok ns => .ok (ns.filter fun n => hasPref mc.data n.txt)

/-! ## Result renderer (spec 4.4) -/

/-- Canonical indentation: one space per depth level. -/
def spacesList (n : Nat) : List Char := List.replicate n ' '

mutual
/-- Modelled from the spec: lines of one node at depth `d`, depth first. -/
def renderLinesN (d : Nat) : ConfigNode → List (Nat × List Char)
  | .node t kids => (d, t) :: renderLinesF (d + 1) kids
/-- Modelled from the spec: lines of a forest at depth `d`, in stored
child order. -/
def renderLinesF (d : Nat) : List ConfigNode → List (Nat × List Char)
  | [] => []
  | n :: ns => renderLinesN d n ++ renderLinesF d ns
end

/-- Characters of one rendered line: indentation, text, newline. -/
def lineChars (p : Nat × List Char) : List Char :=
  spacesList p.1 ++ p.2 ++ ['\n']

/-- Concatenate rendered lines. -/
def unlines : List (Nat × List Char) → List Char
  | [] => []
  | l :: ls => lineChars l ++ unlines ls

/-- Modelled from the spec: serialize a tree back into configuration text,
one fixed indentation unit per depth level; the empty tree renders to the
empty string. -/
def render (t : ConfigTree) : String := ⟨unlines (renderLinesF 0 t)⟩

/-- A line text is clean when it is non-blank, newline-free, and carries no
leading or trailing whitespace; rendered canonical text is made of clean
lines. -/
def cleanLine (t : List Char) : Bool :=
  !t.isEmpty && t.all (fun c => c ≠ '\n') && trimChars t = t

/-- A forest is clean when every line it renders to is clean. -/
def cleanForest (ns : ConfigTree) : Bool :=
  (renderLinesF 0 ns).all fun p => cleanLine p.2

/-! ## Structural differ (spec 4.2) -/

/-- Remove the first node with the given text from a sibling list,
returning it and the remaining siblings in order. -/
def extractFirst (t : List Char) : ConfigTree → Option (ConfigNode × ConfigTree)
  | [] => none
  | c :: cs =>
    if c.txt = t then some (c, cs)
    else
      match extractFirst t cs with
      | none => none
      | some (x, rest) => some (x, c :: rest)

/-- Modelled from the spec: one unordered sibling pass. `missLoop child act
intd` scans `intd` in order; a node with no text match left in `act`
contributes its whole subtree, a matched node is recursively diffed via
`child` and contributes a copy carrying the missing children when any.
Returns the missing nodes and the unmatched remainder of `act`. -/
def missLoop (child : ConfigTree → ConfigTree → ConfigTree) :
    ConfigTree → ConfigTree → ConfigTree × ConfigTree
  | act, [] => ([], act)
  | act, i :: is =>
    match extractFirst i.txt act with
    | none =>
      let r := missLoop child act is
      (i :: r.1, r.2)
    | some (x, rest) =>
      let mc := child x.kids i.kids
      let r := missLoop child rest is
      (if mc = [] then r.1 else .node i.txt mc :: r.1, r.2)

/-- Fueled unordered missing computation; `fuel` bounds nesting depth of the
intended side and any `fuel ≥ depthF intd` is adequate. -/
def missF : Nat → ConfigTree → ConfigTree → ConfigTree
  | 0, _, _ => []
  | f + 1, act, intd => (missLoop (missF f) act intd).1

/-- Modelled from the spec: the tree of nodes present (by text, as
multisets, recursively) in `intd` but absent from `act`. -/
def missingOf (act intd : ConfigTree) : ConfigTree :=
  missF (depthF intd) act intd

/-- Trim the longest common run of structurally equal leading nodes from two
sibling sequences. -/
def trimLead : ConfigTree → ConfigTree → ConfigTree × ConfigTree
  | [], bs => ([], bs)
  | a :: as, [] => (a :: as, [])
  | a :: as, b :: bs => if a = b then trimLead as bs else (a :: as, b :: bs)

/-- Modelled from the spec: the ordered-mode two-pointer trim. Matching
leading and trailing structurally equal nodes are removed; the remaining
middle runs are the wholly mismatched parts. -/
def trimBoth (a b : ConfigTree) : ConfigTree × ConfigTree :=
  let r1 := trimLead a b
  let r2 := trimLead r1.1.reverse r1.2.reverse
  (r2.1.reverse, r2.2.reverse)

/-- Modelled from the spec: `diffTrees act intd ordered` returns the
equality flag, the missing tree (present in intended, absent in actual) and
the extra tree (present in actual, absent in intended). In ordered mode the
trimmed middle of intended is missing and the trimmed middle of actual is
extra; in unordered mode siblings are compared as multisets keyed by text.
The flag is true exactly when both outputs hold zero nodes. -/
def diffTrees (act intd : ConfigTree) (ordered : Bool) :
    Bool × ConfigTree × ConfigTree :=
  let r :=
    if ordered then
      let p := trimBoth act intd
      (p.2, p.1)
    else
      (missingOf act intd, missingOf intd act)
  (r.1.isEmpty && r.2.isEmpty, r.1, r.2)

/-- One unordered pass of the spec's recursive tree equality: every intended
sibling finds a distinct actual sibling of the same text whose children are
recursively equal, and no actual sibling is left over. -/
def eqULoop (child : ConfigTree → ConfigTree → Bool) :
    ConfigTree → ConfigTree → Bool
  | act, [] => act.isEmpty
  | act, i :: is =>
    match extractFirst i.txt act with
    | none => false
    | some (x, rest) => child x.kids i.kids && eqULoop child rest is

/-- Fueled unordered tree equality; any `fuel ≥ depthF` of the intended side
is adequate. -/
def eqUF : Nat → ConfigTree → ConfigTree → Bool
  | 0, act, _ => act.isEmpty
  | f + 1, act, intd => eqULoop (eqUF f) act intd

/-- Unordered recursive tree equality keyed by text. -/
def eqU (a b : ConfigTree) : Bool := eqUF (depthF b) a b

/-- Modelled from the spec: two trees are equal when every node's text
matches and each matched node's children are equal under the same ordering
rule, recursively — positional in ordered mode, as text-keyed multisets in
unordered mode. -/
def treesEqual (ordered : Bool) (a b : ConfigTree) : Bool :=
  if ordered then forestEq a b else eqU a b

/-! ## Compliance evaluator (spec 4.3) -/

/-- Modelled from the spec: an `EvaluationError` wraps a `ParseError` with
the side (actual or intended) that failed to parse. -/
inductive EvaluationError where
  | actualSide (e : ParseError)
  | intendedSide (e : ParseError)
deriving DecidableEq

/-- Modelled from the spec and the `ComplianceFeature` model: a feature has
a name, a platform, a `match_config` root-line pattern and an `ordered`
flag. -/
structure FeatureSpec where
  name : String
  platform : String
  match_config : String
  ordered : Bool

/-- Modelled from the spec: the result of one (device, feature) comparison.
`compliant` is tri-state: `some true`, `some false`, or `none` when the
intended configuration is absent. -/
structure ComplianceResult where
  compliant : Option Bool
  missing_tree : ConfigTree
  extra_tree : ConfigTree
  actual_text : String
  intended_text : String

/-- Modelled from the spec: evaluate one feature. An empty intended
configuration yields `compliant = none` with empty missing and extra trees;
otherwise both sides are parsed scoped to the feature and diffed under the
feature's ordering mode, and a `ParseError` propagates tagged with the side
that failed. -/
def evaluate (actual_config intended_config : String) (f : FeatureSpec) :
    Except EvaluationError ComplianceResult :=
  if intended_config = "" then
    .ok ⟨none, [], [], actual_config, intended_config⟩
  else
    match parse actual_config f.match_config with
    | .error e => .error (.actualSide e)
    | .ok act =>
      match parse intended_config f.match_config with
      | .error e => .error (.intendedSide e)
      | .ok intd =>
        let r := diffTrees act intd f.ordered
        .ok ⟨some r.1, r.2.1, r.2.2, actual_config, intended_config⟩

/-- True when an evaluation or parse result is a success. -/
def isOkE {ε α : Type} : Except ε α → Bool
  | .ok _ => true
  | .error _ => false

instance {ε α : Type} [DecidableEq ε] [DecidableEq α] :
    DecidableEq (Except ε α) := fun a b =>
  match a, b with
  | .ok x, .ok y =>
    if h : x = y then isTrue (by rw [h])
    else isFalse (by intro hc; cases hc; exact h rfl)
  | .error x, .error y =>
    if h : x = y then isTrue (by rw [h])
    else isFalse (by intro hc; cases hc; exact h rfl)
  | .ok _, .error _ => isFalse (by intro h; cases h)
  | .error _, .ok _ => isFalse (by intro h; cases h)

/-! ## Consistent indentation, stated independently (spec 4.1, 7) -/

/-- Modelled from the spec: a stack walk over the line indentations. The
stack holds the open indentation levels, innermost first; a deeper line
opens a level, and a dedent must match an open level exactly — popping to
it — otherwise the text is structurally inconsistent. -/
def levelsOk : List Nat → List Nat → Bool
  | _, [] => true
  | [], i :: rest => levelsOk [i] rest
  | top :: s, i :: rest =>
    if top < i then levelsOk (i :: top :: s) rest
    else if (top :: s).contains i then
      levelsOk ((top :: s).dropWhile fun l => i < l) rest
    else false

/-- Modelled from the spec: raw text has structurally consistent
indentation when every dedent lands exactly on an open level. -/
def consistentIndent (raw : String) : Bool :=
  levelsOk [] ((toLines raw.data).map Prod.fst)

/-! ## Persisted models (nautobot_golden_config/models.py) -/

/-- Serialized field values: Django text fields, booleans, and the nullable
boolean `compliance` column (`models.BooleanField(null=True)`), whose three
states are `some true`, `some false` and `none`. -/
inductive FieldVal where
  | str (v : String)
  | boolean (v : Bool)
  | triBool (v : Option Bool)
deriving DecidableEq

/-- The `ConfigCompliance` model of models.py: per device and feature, the
tri-state `compliance` plus the stored `actual`, `intended`, `missing` and
`extra` texts and the `ordered` flag. -/
structure ConfigCompliance where
  device : String
  feature : String
  slug : String
  compliance : Option Bool
  actual : String
  intended : String
  missing : String
  extra : String
  ordered : Bool

/-- Persist a `ComplianceResult` into a `ConfigCompliance` row, flattening
trees to rendered text (spec 3, lifecycle). -/
def flattenResult (device feature slug : String) (f : FeatureSpec)
    (r : ComplianceResult) : ConfigCompliance :=
  ⟨device, feature, slug, r.compliant, r.actual_text, r.intended_text,
    render r.missing_tree, render r.extra_tree, f.ordered⟩

/-- Field-name/value pairs of a `ConfigCompliance` row, in declaration
order, as `nautobot.utilities.utils.serialize_object` sees them. -/
def ConfigCompliance.allFields (c : ConfigCompliance) : List (String × FieldVal) :=
  [("device", .str c.device), ("feature", .str c.feature),
   ("slug", .str c.slug), ("compliance", .triBool c.compliance),
   ("actual", .str c.actual), ("intended", .str c.intended),
   ("missing", .str c.missing), ("extra", .str c.extra),
   ("ordered", .boolean c.ordered)]

/-- The `serialize_object(self, exclude=[...])` helper: serialized fields
with the excluded names removed. -/
def serialize_object (fields : List (String × FieldVal)) (exclude : List String) :
    List (String × FieldVal) :=
  fields.filter fun p => !exclude.contains p.1

/-- The `nautobot.extras.models.ObjectChange` changelog entry produced by
`to_objectchange`. -/
structure ObjectChange (α : Type) where
  changed_object : α
  object_repr : String
  action : String
  object_data : List (String × FieldVal)

/-- Python `str()` of the tri-state compliance value. -/
def triStr : Option Bool → String
  | none => "None"
  | some true => "True"
  | some false => "False"

/-- The `__str__` of `ConfigCompliance` (models.py line 71). -/
def ConfigCompliance.strRepr (c : ConfigCompliance) : String :=
  c.device ++ " -> " ++ c.feature ++ " -> " ++ triStr c.compliance

/-- `ConfigCompliance.to_objectchange` (models.py lines 53-60): the
changelog entry serializes the row with `actual` and `intended` excluded. -/
def ConfigCompliance.to_objectchange (c : ConfigCompliance) (action : String) :
    ObjectChange ConfigCompliance :=
  ⟨c, c.strRepr, action, serialize_object c.allFields ["actual", "intended"]⟩

/-- The `GoldenConfiguration` model of models.py: full backup, intended and
compliance texts with their attempt/success timestamps (timestamps embedded
as optional strings). -/
structure GoldenConfiguration where
  device : String
  backup_config : String
  backup_last_attempt_date : Option String
  backup_last_success_date : Option String
  intended_config : String
  intended_last_attempt_date : Option String
  intended_last_success_date : Option String
  compliance_config : String
  compliance_last_attempt_date : Option String
  compliance_last_success_date : Option String

/-- Python `str()` of an optional timestamp. -/
def optStr : Option String → String
  | none => "None"
  | some s => s

/-- Field-name/value pairs of a `GoldenConfiguration` row, in declaration
order. -/
def GoldenConfiguration.allFields (g : GoldenConfiguration) :
    List (String × FieldVal) :=
  [("device", .str g.device),
   ("backup_config", .str g.backup_config),
   ("backup_last_attempt_date", .str (optStr g.backup_last_attempt_date)),
   ("backup_last_success_date", .str (optStr g.backup_last_success_date)),
   ("intended_config", .str g.intended_config),
   ("intended_last_attempt_date", .str (optStr g.intended_last_attempt_date)),
   ("intended_last_success_date", .str (optStr g.intended_last_success_date)),
   ("compliance_config", .str g.compliance_config),
   ("compliance_last_attempt_date", .str (optStr g.compliance_last_attempt_date)),
   ("compliance_last_success_date", .str (optStr g.compliance_last_success_date))]

/-- `GoldenConfiguration.to_objectchange` (models.py lines 126-133): the
changelog entry serializes the row with `backup_config`, `intended_config`
and `compliance_config` excluded. -/
def GoldenConfiguration.to_objectchange (g : GoldenConfiguration)
    (action : String) : ObjectChange GoldenConfiguration :=
  ⟨g, g.device, action,
    serialize_object g.allFields
      ["backup_config", "intended_config", "compliance_config"]⟩

/-- The `GoldenConfigSettings` singleton model of models.py: global path
templates and query settings. -/
structure GoldenConfigSettings where
  backup_path_template : String
  intended_path_template : String
  jinja_path_template : String
  backup_test_connectivity : Bool
  shorten_sot_query : Bool
  sot_agg_query : String

/-- `GoldenConfigSettings.delete` (models.py lines 249-251): the overridden
method body is `pass`, so with the settings table and the receiving
instance as explicit state, the call returns both unchanged whatever
positional or keyword arguments it receives. -/
def GoldenConfigSettings.delete (table : List GoldenConfigSettings)
    (self : GoldenConfigSettings) (_args : List String)
    (_kwargs : List (String × String)) :
    List GoldenConfigSettings × GoldenConfigSettings :=
  (table, self)

/-! ## Structural equality lemmas -/

mutual
theorem nodeEq_iff : ∀ a b : ConfigNode, nodeEq a b = true ↔ a = b
  | .node t1 k1, .node t2 k2 => by
    rw [nodeEq]
    simp only [Bool.and_eq_true, decide_eq_true_eq, ConfigNode.node.injEq]
    rw [forestEq_iff k1 k2]
theorem forestEq_iff : ∀ a b : List ConfigNode, forestEq a b = true ↔ a = b
  | [], [] => by simp [forestEq]
  | [], _ :: _ => by simp [forestEq]
  | _ :: _, [] => by simp [forestEq]
  | a :: as, b :: bs => by
    rw [forestEq]
    simp only [Bool.and_eq_true, List.cons.injEq]
    rw [nodeEq_iff a b, forestEq_iff as bs]
end

/-! ## Ordered-mode trim lemmas -/

theorem trimLead_self : ∀ a : ConfigTree, trimLead a a = ([], [])
  | [] => by rw [trimLead]
  | x :: xs => by rw [trimLead, if_pos rfl, trimLead_self xs]

theorem trimLead_decomp : ∀ a b : ConfigTree,
    ∃ p, a = p ++ (trimLead a b).1 ∧ b = p ++ (trimLead a b).2
  | [], [] => ⟨[], rfl, rfl⟩
  | [], b :: bs => ⟨[], rfl, rfl⟩
  | a :: as, [] => ⟨[], rfl, rfl⟩
  | a :: as, b :: bs => by
    rw [trimLead]
    by_cases h : a = b
    · subst h
      rw [if_pos rfl]
      obtain ⟨p, h1, h2⟩ := trimLead_decomp as bs
      exact ⟨a :: p, by simpa using h1, by simpa using h2⟩
    · rw [if_neg h]
      exact ⟨[], rfl, rfl⟩

theorem trimLead_swap : ∀ a b : ConfigTree,
    trimLead b a = ((trimLead a b).2, (trimLead a b).1)
  | [], [] => rfl
  | [], b :: bs => rfl
  | a :: as, [] => rfl
  | a :: as, b :: bs => by
    rw [trimLead, trimLead]
    by_cases h : a = b
    · subst h
      rw [if_pos rfl, if_pos rfl, trimLead_swap as bs]
    · rw [if_neg h, if_neg (fun e => h e.symm)]

theorem trimLead_nil_iff (a b : ConfigTree) :
    (trimLead a b).1 = [] ∧ (trimLead a b).2 = [] ↔ a = b := by
  constructor
  · rintro ⟨h1, h2⟩
    obtain ⟨p, ha, hb⟩ := trimLead_decomp a b
    rw [h1] at ha
    rw [h2] at hb
    simp at ha hb
    rw [ha, hb]
  · rintro rfl
    rw [trimLead_self]
    exact ⟨rfl, rfl⟩

theorem trimBoth_self (a : ConfigTree) : trimBoth a a = ([], []) := by
  simp [trimBoth, trimLead_self]

theorem trimBoth_swap (a b : ConfigTree) :
    trimBoth b a = ((trimBoth a b).2, (trimBoth a b).1) := by
  rw [trimBoth, trimBoth, trimLead_swap a b, trimLead_swap]

theorem trimBoth_nil_iff (a b : ConfigTree) :
    (trimBoth a b).1 = [] ∧ (trimBoth a b).2 = [] ↔ a = b := by
  simp only [trimBoth, List.reverse_eq_nil_iff]
  rw [trimLead_nil_iff, List.reverse_inj]
  constructor
  · intro h
    obtain ⟨p, ha, hb⟩ := trimLead_decomp a b
    rw [h] at ha
    exact ha.trans hb.symm
  · rintro rfl
    rw [trimLead_self]

/-! ## Depth and size lemmas -/

theorem depthF_kids_lt (i : ConfigNode) : depthF i.kids < depthN i := by
  cases i with
  | node t k =>
    rw [ConfigNode.kids, depthN]
    omega

theorem depthN_mem_le (l : ConfigTree) (i : ConfigNode) (h : i ∈ l) :
    depthN i ≤ depthF l := by
  induction l with
  | nil => cases h
  | cons c cs ih =>
    rw [depthF]
    rcases List.mem_cons.mp h with rfl | h2
    · exact le_max_left _ _
    · exact le_trans (ih h2) (le_max_right _ _)

theorem depthF_eq_zero (l : ConfigTree) : depthF l = 0 ↔ l = [] := by
  cases l with
  | nil => simp [depthF]
  | cons c cs =>
    cases c with
    | node t k =>
      simp only [depthF, depthN, Nat.max_eq_zero_iff]
      simp

theorem sizeN_pos (i : ConfigNode) : 1 ≤ sizeN i := by
  cases i with
  | node t k => rw [sizeN]; omega

theorem sizeF_kids_lt (i : ConfigNode) : sizeF i.kids < sizeN i := by
  cases i with
  | node t k => rw [ConfigNode.kids, sizeN]; omega

theorem sizeN_mem_le (l : ConfigTree) (i : ConfigNode) (h : i ∈ l) :
    sizeN i ≤ sizeF l := by
  induction l with
  | nil => cases h
  | cons c cs ih =>
    rw [sizeF]
    rcases List.mem_cons.mp h with rfl | h2
    · omega
    · have := ih h2
      have := sizeN_pos c
      omega

theorem sizeF_append (p q : ConfigTree) : sizeF (p ++ q) = sizeF p + sizeF q := by
  induction p with
  | nil => rw [sizeF]; simp
  | cons c cs ih => rw [List.cons_append, sizeF, sizeF, ih]; omega

/-! ## extractFirst lemmas -/

theorem extractFirst_eq_none (t : List Char) :
    ∀ l : ConfigTree, extractFirst t l = none ↔ ∀ n ∈ l, n.txt ≠ t
  | [] => by simp [extractFirst]
  | c :: cs => by
    rw [extractFirst]
    by_cases h : c.txt = t
    · rw [if_pos h]
      simp [h]
    · rw [if_neg h]
      cases hx : extractFirst t cs with
      | none =>
        simp only [List.forall_mem_cons]
        exact iff_of_true trivial ⟨h, (extractFirst_eq_none t cs).mp hx⟩
      | some pr =>
        obtain ⟨x, rest⟩ := pr
        simp only [List.forall_mem_cons]
        constructor
        · intro hc; cases hc
        · rintro ⟨-, hall⟩
          rw [(extractFirst_eq_none t cs).mpr hall] at hx
          cases hx

theorem extractFirst_decomp (t : List Char) :
    ∀ (l : ConfigTree) (x : ConfigNode) (rest : ConfigTree),
      extractFirst t l = some (x, rest) →
      ∃ p q, l = p ++ x :: q ∧ rest = p ++ q ∧ x.txt = t ∧ ∀ n ∈ p, n.txt ≠ t
  | [] => by simp [extractFirst]
  | c :: cs => by
    intro x rest
    rw [extractFirst]
    by_cases h : c.txt = t
    · rw [if_pos h]
      intro he
      simp only [Option.some.injEq, Prod.mk.injEq] at he
      obtain ⟨rfl, rfl⟩ := he
      exact ⟨[], cs, rfl, rfl, h, by simp⟩
    · rw [if_neg h]
      cases hx : extractFirst t cs with
      | none => intro hc; cases hc
      | some pr =>
        obtain ⟨x0, r0⟩ := pr
        intro he
        simp only [Option.some.injEq, Prod.mk.injEq] at he
        obtain ⟨rfl, rfl⟩ := he
        obtain ⟨p, q, h1, h2, h3, h4⟩ := extractFirst_decomp t cs x0 r0 hx
        refine ⟨c :: p, q, ?_, ?_, h3, ?_⟩
        · rw [List.cons_append, h1]
        · rw [List.cons_append, h2]
        · intro n hn
          rcases List.mem_cons.mp hn with rfl | hn2
          · exact h
          · exact h4 n hn2

theorem extractFirst_append (t : List Char) :
    ∀ (p : ConfigTree) (x : ConfigNode) (q : ConfigTree),
      (∀ n ∈ p, n.txt ≠ t) → x.txt = t →
      extractFirst t (p ++ x :: q) = some (x, p ++ q)
  | [], x, q => by
    intro _ hx
    rw [List.nil_append, List.nil_append, extractFirst, if_pos hx]
  | c :: p, x, q => by
    intro hp hx
    rw [List.cons_append, extractFirst, if_neg (hp c (by simp))]
    rw [extractFirst_append t p x q (fun n hn => hp n (by simp [hn])) hx]
    rw [List.cons_append]

/-! ## Unordered loop lemmas -/

theorem missLoop_nil_intd (ch : ConfigTree → ConfigTree → ConfigTree)
    (act : ConfigTree) : missLoop ch act [] = ([], act) := rfl

theorem missLoop_nil_act (ch : ConfigTree → ConfigTree → ConfigTree) :
    ∀ l : ConfigTree, missLoop ch [] l = (l, [])
  | [] => rfl
  | i :: is => by
    rw [missLoop]
    have hx : extractFirst i.txt [] = none := rfl
    simp only [hx, missLoop_nil_act ch is]

theorem missLoop_congr (ch1 ch2 : ConfigTree → ConfigTree → ConfigTree) :
    ∀ intd : ConfigTree,
      (∀ i ∈ intd, ∀ xc, ch1 xc i.kids = ch2 xc i.kids) →
      ∀ act, missLoop ch1 act intd = missLoop ch2 act intd
  | [] => by intro _ act; rfl
  | i :: is => by
    intro h act
    have hrest : ∀ act2, missLoop ch1 act2 is = missLoop ch2 act2 is :=
      missLoop_congr ch1 ch2 is (fun j hj xc => h j (by simp [hj]) xc)
    rw [missLoop, missLoop]
    cases hx : extractFirst i.txt act with
    | none => simp only [hx, hrest act]
    | some pr =>
      obtain ⟨x, rest⟩ := pr
      simp only [hx, hrest rest, h i (by simp) x.kids]

theorem missF_adequate : ∀ (f g : Nat) (intd : ConfigTree),
    depthF intd ≤ f → depthF intd ≤ g →
    ∀ act, missF f act intd = missF g act intd := by
  intro f
  induction f with
  | zero =>
    intro g intd hf _ act
    have hI : intd = [] := (depthF_eq_zero intd).mp (Nat.le_zero.mp hf)
    subst hI
    cases g with
    | zero => rfl
    | succ g => rw [missF, missF, missLoop_nil_intd]
  | succ f ih =>
    intro g intd hf hg act
    by_cases hI : intd = []
    · subst hI
      cases g with
      | zero => rw [missF, missF, missLoop_nil_intd]
      | succ g => rw [missF, missF, missLoop_nil_intd, missLoop_nil_intd]
    · have hd : 1 ≤ depthF intd := by
        rcases Nat.eq_zero_or_pos (depthF intd) with h0 | h1
        · exact absurd ((depthF_eq_zero intd).mp h0) hI
        · exact h1
      cases g with
      | zero => omega
      | succ g =>
        rw [missF, missF]
        have hcong : ∀ i ∈ intd, ∀ xc, missF f xc i.kids = missF g xc i.kids := by
          intro i hi xc
          have h1 := depthF_kids_lt i
          have h2 := depthN_mem_le intd i hi
          exact ih g i.kids (by omega) (by omega) xc
        rw [missLoop_congr (missF f) (missF g) intd hcong act]

theorem missingOf_unfold (act intd : ConfigTree) :
    missingOf act intd = (missLoop missingOf act intd).1 := by
  by_cases hI : intd = []
  · subst hI
    rw [missingOf, missLoop_nil_intd]
    rfl
  · have hd : 1 ≤ depthF intd := by
      rcases Nat.eq_zero_or_pos (depthF intd) with h0 | h1
      · exact absurd ((depthF_eq_zero intd).mp h0) hI
      · exact h1
    obtain ⟨d, hdeq⟩ : ∃ d, depthF intd = d + 1 := ⟨depthF intd - 1, by omega⟩
    rw [missingOf, hdeq, missF]
    have hcong : ∀ i ∈ intd, ∀ xc, missF d xc i.kids = missingOf xc i.kids := by
      intro i hi xc
      rw [missingOf]
      apply missF_adequate
      · have h1 := depthF_kids_lt i
        have h2 := depthN_mem_le intd i hi
        omega
      · exact le_refl _
    rw [missLoop_congr (missF d) missingOf intd hcong act]

theorem missLoop_append (ch : ConfigTree → ConfigTree → ConfigTree) :
    ∀ (p q act : ConfigTree),
      missLoop ch act (p ++ q) =
        ((missLoop ch act p).1 ++ (missLoop ch (missLoop ch act p).2 q).1,
          (missLoop ch (missLoop ch act p).2 q).2)
  | [], q, act => by rw [List.nil_append, missLoop_nil_intd]; rfl
  | i :: is, q, act => by
    rw [List.cons_append, missLoop, missLoop]
    cases hx : extractFirst i.txt act with
    | none =>
      simp only [hx, missLoop_append ch is q act, List.cons_append]
    | some pr =>
      obtain ⟨x, rest⟩ := pr
      simp only [hx, missLoop_append ch is q rest]
      by_cases hmc : ch x.kids i.kids = []
      · simp only [if_pos hmc]
      · simp only [if_neg hmc, List.cons_append]

theorem missLoop_skip_head (ch : ConfigTree → ConfigTree → ConfigTree)
    (t : List Char) (i0 : ConfigNode) (hi : i0.txt = t) :
    ∀ p : ConfigTree, (∀ n ∈ p, n.txt ≠ t) → ∀ as : ConfigTree,
      missLoop ch (i0 :: as) p = ((missLoop ch as p).1, i0 :: (missLoop ch as p).2)
  | [] => by intro _ as; rw [missLoop_nil_intd, missLoop_nil_intd]
  | j :: p => by
    intro hp as
    have hj : i0.txt ≠ j.txt := by
      rw [hi]
      exact fun e => hp j (by simp) e.symm
    rw [missLoop, missLoop, extractFirst, if_neg hj]
    cases hx : extractFirst j.txt as with
    | none =>
      simp only [hx,
        missLoop_skip_head ch t i0 hi p (fun n hn => hp n (by simp [hn])) as]
    | some pr =>
      obtain ⟨x, rest⟩ := pr
      simp only [hx,
        missLoop_skip_head ch t i0 hi p (fun n hn => hp n (by simp [hn])) rest]

theorem missF_self : ∀ (f : Nat) (ns : ConfigTree),
    depthF ns ≤ f → missF f ns ns = [] := by
  intro f
  induction f with
  | zero => intro ns _; rfl
  | succ f ih =>
    intro ns hd
    rw [missF]
    suffices h : ∀ ms : ConfigTree, (∀ i ∈ ms, depthF i.kids ≤ f) →
        (missLoop (missF f) ms ms).1 = [] by
      apply h
      intro i hi
      have h1 := depthF_kids_lt i
      have h2 := depthN_mem_le ns i hi
      omega
    intro ms
    induction ms with
    | nil => intro _; rfl
    | cons i is ihm =>
      intro hkb
      rw [missLoop]
      have hx : extractFirst i.txt (i :: is) = some (i, is) := by
        rw [extractFirst, if_pos rfl]
      simp only [hx, ih i.kids (hkb i (by simp)), if_pos rfl]
      exact ihm fun j hj => hkb j (by simp [hj])

theorem missingOf_self (t : ConfigTree) : missingOf t t = [] :=
  missF_self (depthF t) t (le_refl _)

/-! ## Unordered equality loop lemmas -/

theorem eqULoop_congr (ch1 ch2 : ConfigTree → ConfigTree → Bool) :
    ∀ intd : ConfigTree,
      (∀ i ∈ intd, ∀ xc, ch1 xc i.kids = ch2 xc i.kids) →
      ∀ act, eqULoop ch1 act intd = eqULoop ch2 act intd
  | [] => by intro _ act; rfl
  | i :: is => by
    intro h act
    have hrest : ∀ act2, eqULoop ch1 act2 is = eqULoop ch2 act2 is :=
      eqULoop_congr ch1 ch2 is (fun j hj xc => h j (by simp [hj]) xc)
    rw [eqULoop, eqULoop]
    cases hx : extractFirst i.txt act with
    | none => simp only [hx]
    | some pr =>
      obtain ⟨x, rest⟩ := pr
      simp only [hx, hrest rest, h i (by simp) x.kids]

theorem eqUF_adequate : ∀ (f g : Nat) (intd : ConfigTree),
    depthF intd ≤ f → depthF intd ≤ g →
    ∀ act, eqUF f act intd = eqUF g act intd := by
  intro f
  induction f with
  | zero =>
    intro g intd hf _ act
    have hI : intd = [] := (depthF_eq_zero intd).mp (Nat.le_zero.mp hf)
    subst hI
    cases g with
    | zero => rfl
    | succ g => rw [eqUF, eqUF, eqULoop]
  | succ f ih =>
    intro g intd hf hg act
    by_cases hI : intd = []
    · subst hI
      cases g with
      | zero => rw [eqUF, eqUF, eqULoop]
      | succ g => rw [eqUF, eqUF, eqULoop, eqULoop]
    · have hd : 1 ≤ depthF intd := by
        rcases Nat.eq_zero_or_pos (depthF intd) with h0 | h1
        · exact absurd ((depthF_eq_zero intd).mp h0) hI
        · exact h1
      cases g with
      | zero => omega
      | succ g =>
        rw [eqUF, eqUF]
        have hcong : ∀ i ∈ intd, ∀ xc, eqUF f xc i.kids = eqUF g xc i.kids := by
          intro i hi xc
          have h1 := depthF_kids_lt i
          have h2 := depthN_mem_le intd i hi
          exact ih g i.kids (by omega) (by omega) xc
        rw [eqULoop_congr (eqUF f) (eqUF g) intd hcong act]

theorem eqU_unfold (act intd : ConfigTree) :
    eqU act intd = eqULoop eqU act intd := by
  by_cases hI : intd = []
  · subst hI
    rw [eqU, eqULoop]
    rfl
  · have hd : 1 ≤ depthF intd := by
      rcases Nat.eq_zero_or_pos (depthF intd) with h0 | h1
      · exact absurd ((depthF_eq_zero intd).mp h0) hI
      · exact h1
    obtain ⟨d, hdeq⟩ : ∃ d, depthF intd = d + 1 := ⟨depthF intd - 1, by omega⟩
    rw [eqU, hdeq, eqUF]
    have hcong : ∀ i ∈ intd, ∀ xc, eqUF d xc i.kids = eqU xc i.kids := by
      intro i hi xc
      rw [eqU]
      apply eqUF_adequate
      · have h1 := depthF_kids_lt i
        have h2 := depthN_mem_le intd i hi
        omega
      · exact le_refl _
    rw [eqULoop_congr (eqUF d) eqU intd hcong act]

theorem sizeF_eq_zero (l : ConfigTree) : sizeF l = 0 ↔ l = [] := by
  cases l with
  | nil => simp [sizeF]
  | cons c cs =>
    rw [sizeF]
    have := sizeN_pos c
    simp
    omega

theorem eqU_iff_missing_aux : ∀ (n : Nat) (a b : ConfigTree),
    sizeF a + sizeF b ≤ n →
    (eqU a b = true ↔ missingOf a b = [] ∧ missingOf b a = []) := by
  intro n
  induction n with
  | zero =>
    intro a b h
    have ha : a = [] := (sizeF_eq_zero a).mp (by omega)
    have hb : b = [] := (sizeF_eq_zero b).mp (by omega)
    subst ha
    subst hb
    exact iff_of_true rfl ⟨rfl, rfl⟩
  | succ n ih =>
    intro a b hsz
    rcases b with _ | ⟨i, is⟩
    · have h1 : eqU a [] = a.isEmpty := rfl
      have h2 : missingOf a [] = [] := rfl
      have h3 : missingOf [] a = a := by
        rw [missingOf_unfold, missLoop_nil_act]
      rw [h1, h2, h3]
      simp [List.isEmpty_iff]
    · cases hx : extractFirst i.txt a with
      | none =>
        have hL : eqU a (i :: is) = false := by
          rw [eqU_unfold, eqULoop]
          simp only [hx]
        have hM : missingOf a (i :: is) = i :: (missLoop missingOf a is).1 := by
          rw [missingOf_unfold, missLoop]
          simp only [hx]
        rw [hL, hM]
        simp
      | some pr =>
        obtain ⟨x, rest⟩ := pr
        obtain ⟨p, q, hdec, hrest, hxt, hp⟩ := extractFirst_decomp i.txt a x rest hx
        have hL : eqU a (i :: is) = (eqU x.kids i.kids && eqU rest is) := by
          rw [eqU_unfold, eqULoop]
          simp only [hx]
          rw [← eqU_unfold]
        have hM1 : missingOf a (i :: is) =
            (if missingOf x.kids i.kids = [] then missingOf rest is
             else ConfigNode.node i.txt (missingOf x.kids i.kids) ::
               missingOf rest is) := by
          rw [missingOf_unfold, missLoop]
          simp only [hx]
          rw [← missingOf_unfold]
        have hskip := missLoop_skip_head missingOf i.txt i rfl p hp is
        have hx2 : extractFirst x.txt (i :: (missLoop missingOf is p).2) =
            some (i, (missLoop missingOf is p).2) := by
          rw [extractFirst, if_pos hxt.symm]
        have hM2 : missingOf (i :: is) a =
            (missLoop missingOf is p).1 ++
              (if missingOf i.kids x.kids = [] then
                  (missLoop missingOf (missLoop missingOf is p).2 q).1
               else ConfigNode.node x.txt (missingOf i.kids x.kids) ::
                 (missLoop missingOf (missLoop missingOf is p).2 q).1) := by
          rw [missingOf_unfold, hdec, missLoop_append missingOf p (x :: q) (i :: is)]
          dsimp only
          rw [hskip]
          dsimp only
          rw [missLoop]
          simp only [hx2]
        have hM3 : missingOf is rest =
            (missLoop missingOf is p).1 ++
              (missLoop missingOf (missLoop missingOf is p).2 q).1 := by
          rw [hrest, missingOf_unfold, missLoop_append missingOf p q is]
        have hxa : sizeN x ≤ sizeF a := sizeN_mem_le a x (by rw [hdec]; simp)
        have hsza : sizeF a = sizeF p + sizeF (x :: q) := by
          rw [hdec, sizeF_append]
        have hsxq : sizeF (x :: q) = sizeN x + sizeF q := by rw [sizeF]
        have hszr : sizeF rest = sizeF p + sizeF q := by
          rw [hrest, sizeF_append]
        have hkx := sizeF_kids_lt x
        have hki := sizeF_kids_lt i
        have hsb : sizeF (i :: is) = sizeN i + sizeF is := by rw [sizeF]
        have hsi := sizeN_pos i
        have hsx := sizeN_pos x
        have ih1 := ih x.kids i.kids (by omega)
        have ih2 := ih rest is (by omega)
        rw [hL, hM1, hM2]
        simp only [Bool.and_eq_true]
        rw [ih1, ih2]
        constructor
        · rintro ⟨⟨hA1, hA2⟩, ⟨hB1, hB2⟩⟩
          rw [hM3] at hB2
          obtain ⟨hp1, hp2⟩ := List.append_eq_nil.mp hB2
          constructor
          · rw [if_pos hA1]
            exact hB1
          · rw [if_pos hA2, hp1, hp2]
            rfl
        · rintro ⟨h1, h2⟩
          by_cases hA1 : missingOf x.kids i.kids = []
          · rw [if_pos hA1] at h1
            by_cases hA2 : missingOf i.kids x.kids = []
            · rw [if_pos hA2] at h2
              obtain ⟨hp1, hp2⟩ := List.append_eq_nil.mp h2
              refine ⟨⟨hA1, hA2⟩, h1, ?_⟩
              rw [hM3, hp1, hp2]
              rfl
            · rw [if_neg hA2] at h2
              exact absurd h2 (by simp)
          · rw [if_neg hA1] at h1
            exact absurd h1 (by simp)

theorem eqU_iff_missing (a b : ConfigTree) :
    eqU a b = true ↔ missingOf a b = [] ∧ missingOf b a = [] :=
  eqU_iff_missing_aux (sizeF a + sizeF b) a b (le_refl _)

/-! ## Renderer and parser round-trip lemmas -/

theorem splitNl_append_nl (a b : List Char) (ha : ∀ c ∈ a, c ≠ '\n') :
    splitNl (a ++ '\n' :: b) = a :: splitNl b := by
  induction a with
  | nil => rw [List.nil_append, splitNl, if_pos rfl]
  | cons c cs ih =>
    rw [List.cons_append, splitNl, if_neg (ha c (by simp)),
      ih fun x hx => ha x (by simp [hx])]

theorem dropWhile_ws_replicate (d : Nat) (t : List Char) :
    (List.replicate d ' ' ++ t).dropWhile isWsChar = t.dropWhile isWsChar := by
  induction d with
  | zero => rfl
  | succ d ih =>
    rw [List.replicate_succ, List.cons_append, List.dropWhile_cons,
      if_pos (by decide)]
    exact ih

theorem trimChars_spaces (d : Nat) (t : List Char) :
    trimChars (spacesList d ++ t) = trimChars t := by
  rw [trimChars, trimChars, spacesList, dropWhile_ws_replicate]

theorem clean_head_not_ws (c : Char) (cs : List Char)
    (h : trimChars (c :: cs) = c :: cs) : isWsChar c = false := by
  cases hws : isWsChar c with
  | false => rfl
  | true =>
    exfalso
    have h1 : (c :: cs).dropWhile isWsChar = cs.dropWhile isWsChar := by
      rw [List.dropWhile_cons, if_pos hws]
    have h2 : (trimChars (c :: cs)).length ≤ cs.length := by
      rw [trimChars, h1, List.length_reverse]
      calc ((cs.dropWhile isWsChar).reverse.dropWhile isWsChar).length
          ≤ (cs.dropWhile isWsChar).reverse.length :=
            List.Sublist.length_le (List.dropWhile_sublist _)
        _ = (cs.dropWhile isWsChar).length := List.length_reverse _
        _ ≤ cs.length := List.Sublist.length_le (List.dropWhile_sublist _)
    rw [h] at h2
    simp at h2

theorem cleanLine_spec (t : List Char) (h : cleanLine t = true) :
    t ≠ [] ∧ (∀ c ∈ t, c ≠ '\n') ∧ trimChars t = t := by
  rw [cleanLine, Bool.and_eq_true, Bool.and_eq_true] at h
  obtain ⟨⟨hA, hB⟩, hC⟩ := h
  refine ⟨?_, ?_, of_decide_eq_true hC⟩
  · intro he
    rw [he] at hA
    exact absurd hA (by decide)
  · intro c hc
    have := List.all_eq_true.mp hB c hc
    simpa using this

theorem indentOf_replicate_cons (d : Nat) (c : Char) (cs : List Char)
    (hc : c ≠ ' ') : indentOf (List.replicate d ' ' ++ c :: cs) = d := by
  rw [indentOf]
  induction d with
  | zero =>
    rw [List.replicate_zero, List.nil_append, List.takeWhile_cons,
      if_neg (by simpa using hc)]
    rfl
  | succ d ih =>
    rw [List.replicate_succ, List.cons_append, List.takeWhile_cons,
      if_pos (by decide), List.length_cons, ih]

theorem indentOf_spaces (d : Nat) (t : List Char) (h : cleanLine t = true) :
    indentOf (spacesList d ++ t) = d := by
  obtain ⟨hne, -, htr⟩ := cleanLine_spec t h
  rcases t with _ | ⟨c, cs⟩
  · exact absurd rfl hne
  · have hcw : isWsChar c = false := clean_head_not_ws c cs htr
    have hcs : c ≠ ' ' := by
      intro he
      rw [he] at hcw
      exact absurd hcw (by decide)
    rw [spacesList]
    exact indentOf_replicate_cons d c cs hcs

theorem lineEntry_clean (d : Nat) (t : List Char) (h : cleanLine t = true) :
    lineEntry (spacesList d ++ t) = some (d, t) := by
  obtain ⟨hne, -, htr⟩ := cleanLine_spec t h
  rw [lineEntry, trimChars_spaces, htr, if_neg hne, indentOf_spaces d t h]

theorem toLines_unlines : ∀ L : List (Nat × List Char),
    (∀ p ∈ L, cleanLine p.2 = true) → toLines (unlines L) = L
  | [] => fun _ => rfl
  | (d, t) :: L => fun h => by
    have hc := h (d, t) (by simp)
    obtain ⟨hne, hnl, htr⟩ := cleanLine_spec t hc
    have hsplit : unlines ((d, t) :: L) =
        (spacesList d ++ t) ++ '\n' :: unlines L := by
      rw [unlines, lineChars]
      simp [List.append_assoc]
    have hnn : ∀ c ∈ spacesList d ++ t, c ≠ '\n' := by
      intro c hc2
      rcases List.mem_append.mp hc2 with h1 | h2
      · rw [spacesList] at h1
        rw [List.eq_of_mem_replicate h1]
        decide
      · exact hnl c h2
    have ih := toLines_unlines L fun q hq => h q (by simp [hq])
    rw [toLines, hsplit, splitNl_append_nl _ _ hnn, List.filterMap_cons,
      lineEntry_clean d t hc]
    rw [toLines] at ih
    rw [ih]

theorem renderLinesF_nil (d : Nat) : renderLinesF d [] = [] := by
  rw [renderLinesF]

theorem renderLinesF_cons (d : Nat) (t : List Char) (k : List ConfigNode)
    (ns : ConfigTree) :
    renderLinesF d (ConfigNode.node t k :: ns) =
      (d, t) :: (renderLinesF (d + 1) k ++ renderLinesF d ns) := by
  rw [renderLinesF, renderLinesN, List.cons_append]

theorem parse_render_aux : ∀ (fuel : Nat) (ns : ConfigTree) (d : Nat)
    (rest : List (Nat × List Char)),
    (renderLinesF d ns ++ rest).length < fuel →
    (∀ p ∈ renderLinesF d ns, cleanLine p.2 = true) →
    (rest = [] ∨ ∃ j u tl, rest = (j, u) :: tl ∧ j < d) →
    parseSibF fuel d (renderLinesF d ns ++ rest) = .ok (ns, rest) := by
  intro fuel
  induction fuel with
  | zero =>
    intro ns d rest h _ _
    omega
  | succ fuel ih =>
    intro ns d rest hlen hcl hrest
    rcases ns with _ | ⟨n, ns2⟩
    · rw [renderLinesF_nil, List.nil_append]
      rcases hrest with rfl | ⟨j, u, tl, rfl, hj⟩
      · rw [parseSibF]
      · rw [parseSibF, if_pos hj]
    · cases n with
      | node t k =>
        rw [renderLinesF_cons] at hlen hcl ⊢
        rw [List.cons_append, parseSibF, if_neg (lt_irrefl d),
          if_neg (lt_irrefl d)]
        have hclk : ∀ p ∈ renderLinesF (d + 1) k, cleanLine p.2 = true :=
          fun p hp => hcl p (by simp [hp])
        have hcls : ∀ p ∈ renderLinesF d ns2, cleanLine p.2 = true :=
          fun p hp => hcl p (by simp [hp])
        have hLk :
            (renderLinesF (d + 1) k ++ (renderLinesF d ns2 ++ rest)).length <
              fuel := by
          simp only [List.length_cons, List.length_append] at hlen
          simp only [List.length_append]
          omega
        have hLs : (renderLinesF d ns2 ++ rest).length < fuel := by
          simp only [List.length_cons, List.length_append] at hlen
          simp only [List.length_append]
          omega
        have hrest2 : (renderLinesF d ns2 ++ rest) = [] ∨
            ∃ j u tl, renderLinesF d ns2 ++ rest = (j, u) :: tl ∧ j < d + 1 := by
          rcases ns2 with _ | ⟨m, ms⟩
          · rw [renderLinesF_nil, List.nil_append]
            rcases hrest with rfl | ⟨j, u, tl, rfl, hj⟩
            · exact Or.inl rfl
            · exact Or.inr ⟨j, u, tl, rfl, by omega⟩
          · cases m with
            | node tm km =>
              rw [renderLinesF_cons, List.cons_append]
              exact Or.inr ⟨d, tm, _, rfl, by omega⟩
        have hch : parseKids (parseSibF fuel) d
            ((renderLinesF (d + 1) k ++ renderLinesF d ns2) ++ rest) =
            .ok (k, renderLinesF d ns2 ++ rest) := by
          rcases k with _ | ⟨k0, ks⟩
          · rw [renderLinesF_nil, List.nil_append]
            rcases hrest2 with he | ⟨j, u, tl, he, hj⟩
            · rw [he]
              rfl
            · rw [he]
              simp only [parseKids]
              rw [if_neg (by omega), ← he]
          · cases k0 with
            | node t0 c0 =>
              rw [List.append_assoc]
              have hshape :
                  renderLinesF (d + 1) (ConfigNode.node t0 c0 :: ks) ++
                      (renderLinesF d ns2 ++ rest) =
                    (d + 1, t0) ::
                      ((renderLinesF (d + 2) c0 ++ renderLinesF (d + 1) ks) ++
                        (renderLinesF d ns2 ++ rest)) := by
                rw [renderLinesF_cons, List.cons_append]
              rw [hshape]
              simp only [parseKids]
              rw [if_pos (by omega), ← hshape]
              exact ih (ConfigNode.node t0 c0 :: ks) (d + 1)
                (renderLinesF d ns2 ++ rest) hLk hclk hrest2
        rw [hch]
        have hsib := ih ns2 d rest hLs hcls hrest
        dsimp only
        rw [hsib]

/-! ## Parser and indentation-consistency lemmas -/

theorem parseSibF_rest_length : ∀ (f ind : Nat) (ls : List (Nat × List Char))
    (ns : ConfigTree) (rest : List (Nat × List Char)),
    parseSibF f ind ls = .ok (ns, rest) → rest.length ≤ ls.length := by
  intro f
  induction f with
  | zero =>
    intro ind ls ns rest h
    rw [parseSibF] at h
    exact Except.noConfusion h
  | succ f ih =>
    intro ind ls ns rest h
    rcases ls with _ | ⟨⟨i, t⟩, rest0⟩
    · rw [parseSibF] at h
      simp only [Except.ok.injEq, Prod.mk.injEq] at h
      obtain ⟨-, h2⟩ := h
      rw [← h2]
    · rw [parseSibF] at h
      by_cases h1 : i < ind
      · rw [if_pos h1] at h
        simp only [Except.ok.injEq, Prod.mk.injEq] at h
        obtain ⟨-, h2⟩ := h
        rw [← h2]
      · rw [if_neg h1] at h
        by_cases h2 : ind < i
        · rw [if_pos h2] at h
          exact Except.noConfusion h
        · rw [if_neg h2] at h
          cases hk : parseKids (parseSibF f) ind rest0 with
          | error e =>
            rw [hk] at h
            exact Except.noConfusion h
          | ok pr =>
            obtain ⟨kids, rest1⟩ := pr
            rw [hk] at h
            dsimp only at h
            cases hs : parseSibF f ind rest1 with
            | error e =>
              rw [hs] at h
              exact Except.noConfusion h
            | ok pr2 =>
              obtain ⟨sibs, rest2⟩ := pr2
              rw [hs] at h
              dsimp only at h
              simp only [Except.ok.injEq, Prod.mk.injEq] at h
              obtain ⟨-, h4⟩ := h
              have hl2 : rest2.length ≤ rest1.length := ih ind rest1 sibs rest2 hs
              have hl1 : rest1.length ≤ rest0.length := by
                rcases rest0 with _ | ⟨⟨j, u⟩, tl⟩
                · simp only [parseKids, Except.ok.injEq, Prod.mk.injEq] at hk
                  obtain ⟨-, hk2⟩ := hk
                  rw [← hk2]
                · simp only [parseKids] at hk
                  by_cases hj : ind < j
                  · rw [if_pos hj] at hk
                    exact ih j ((j, u) :: tl) kids rest1 hk
                  · rw [if_neg hj] at hk
                    simp only [Except.ok.injEq, Prod.mk.injEq] at hk
                    obtain ⟨-, hk2⟩ := hk
                    rw [← hk2]
              rw [← h4]
              simp only [List.length_cons]
              omega

theorem parseSibF_rest_head : ∀ (f ind : Nat) (ls : List (Nat × List Char))
    (ns : ConfigTree) (rest : List (Nat × List Char)),
    parseSibF f ind ls = .ok (ns, rest) →
    rest = [] ∨ ∃ j u tl, rest = (j, u) :: tl ∧ j < ind := by
  intro f
  induction f with
  | zero =>
    intro ind ls ns rest h
    rw [parseSibF] at h
    exact Except.noConfusion h
  | succ f ih =>
    intro ind ls ns rest h
    rcases ls with _ | ⟨⟨i, t⟩, rest0⟩
    · rw [parseSibF] at h
      simp only [Except.ok.injEq, Prod.mk.injEq] at h
      obtain ⟨-, h2⟩ := h
      rw [← h2]
      exact Or.inl rfl
    · rw [parseSibF] at h
      by_cases h1 : i < ind
      · rw [if_pos h1] at h
        simp only [Except.ok.injEq, Prod.mk.injEq] at h
        obtain ⟨-, h2⟩ := h
        rw [← h2]
        exact Or.inr ⟨i, t, rest0, rfl, h1⟩
      · rw [if_neg h1] at h
        by_cases h2 : ind < i
        · rw [if_pos h2] at h
          exact Except.noConfusion h
        · rw [if_neg h2] at h
          cases hk : parseKids (parseSibF f) ind rest0 with
          | error e =>
            rw [hk] at h
            exact Except.noConfusion h
          | ok pr =>
            obtain ⟨kids, rest1⟩ := pr
            rw [hk] at h
            dsimp only at h
            cases hs : parseSibF f ind rest1 with
            | error e =>
              rw [hs] at h
              exact Except.noConfusion h
            | ok pr2 =>
              obtain ⟨sibs, rest2⟩ := pr2
              rw [hs] at h
              dsimp only at h
              simp only [Except.ok.injEq, Prod.mk.injEq] at h
              obtain ⟨-, h4⟩ := h
              rw [← h4]
              exact ih ind rest1 sibs rest2 hs

theorem nat_contains_eq_false (l : List Nat) (i : Nat) (h : ∀ x ∈ l, x ≠ i) :
    l.contains i = false := by
  induction l with
  | nil => rfl
  | cons a l ih =>
    rw [List.contains_cons]
    have ha : (i == a) = false := by
      have := h a (by simp)
      simp [Ne.symm this]
    rw [ha, ih fun x hx => h x (by simp [hx])]
    rfl

theorem levelsOk_nil (s : List Nat) : levelsOk s [] = true := by
  cases s <;> rfl

theorem levelsOk_if_form (h0 : Nat) (s : List Nat) (i : Nat) (xs : List Nat)
    (hh : ¬ h0 < i) :
    levelsOk (h0 :: s) (i :: xs) =
      if (h0 :: s).contains i then
        levelsOk ((h0 :: s).dropWhile fun l => i < l) xs
      else false := by
  rw [levelsOk, if_neg hh]

theorem levelsOk_same_level (ind : Nat) (outer : List Nat) (xs : List Nat) :
    levelsOk (ind :: outer) (ind :: xs) = levelsOk (ind :: outer) xs := by
  rw [levelsOk, if_neg (lt_irrefl ind), if_pos (by simp [List.contains_cons])]
  rw [List.dropWhile_cons, if_neg (by simp)]

theorem levelsOk_push (top : Nat) (s : List Nat) (j : Nat) (xs : List Nat)
    (h : top < j) :
    levelsOk (top :: s) (j :: xs) = levelsOk (j :: top :: s) xs := by
  rw [levelsOk, if_pos h]

theorem levelsOk_skip : ∀ (P : List Nat) (s0 : Nat) (s1 : List Nat) (i : Nat)
    (xs : List Nat), (∀ p ∈ P, i < p) → i ≤ s0 →
    levelsOk (P ++ s0 :: s1) (i :: xs) = levelsOk (s0 :: s1) (i :: xs)
  | [] => fun _ _ _ _ _ _ => rfl
  | p0 :: P => fun s0 s1 i xs hP hi => by
    have hp0 := hP p0 (by simp)
    rw [List.cons_append, levelsOk_if_form p0 (P ++ s0 :: s1) i xs (by omega)]
    have hcont : ((p0 :: (P ++ s0 :: s1)).contains i) =
        ((P ++ s0 :: s1).contains i) := by
      rw [List.contains_cons]
      have : (i == p0) = false := by simp; omega
      rw [this]
      rfl
    have hdrop : ((p0 :: (P ++ s0 :: s1)).dropWhile fun l => i < l) =
        ((P ++ s0 :: s1).dropWhile fun l => i < l) := by
      rw [List.dropWhile_cons, if_pos (by simpa using hp0)]
    rw [hcont, hdrop]
    rcases P with _ | ⟨p1, P2⟩
    · rw [List.nil_append, ← levelsOk_if_form s0 s1 i xs (by omega)]
    · rw [List.cons_append,
        ← levelsOk_if_form p1 (P2 ++ s0 :: s1) i xs
          (by have := hP p1 (by simp); omega),
        ← List.cons_append]
      exact levelsOk_skip (p1 :: P2) s0 s1 i xs
        (fun p hp => hP p (by simp [List.mem_cons.mp hp])) hi

theorem parseKids_levels (fuel ind : Nat) (outer : List Nat)
    (rest0 : List (Nat × List Char)) (kids : ConfigTree)
    (rest1 : List (Nat × List Char))
    (ihok : ∀ (ls2 : List (Nat × List Char)) (ind2 : Nat)
      (outer2 pre2 : List Nat) (ns2 : ConfigTree)
      (rest2 : List (Nat × List Char)),
      ls2.length < fuel → (∀ o ∈ outer2, o < ind2) →
      (∀ p ∈ pre2, ind2 < p) →
      parseSibF fuel ind2 ls2 = .ok (ns2, rest2) →
      levelsOk (pre2 ++ ind2 :: outer2) (ls2.map Prod.fst) =
        levelsOk (pre2 ++ ind2 :: outer2) (rest2.map Prod.fst))
    (hlen : rest0.length < fuel)
    (ho : ∀ o ∈ outer, o < ind)
    (hk : parseKids (parseSibF fuel) ind rest0 = .ok (kids, rest1)) :
    ∃ PRE1 : List Nat, (∀ p ∈ PRE1, ind < p) ∧
      levelsOk (ind :: outer) (rest0.map Prod.fst) =
        levelsOk (PRE1 ++ ind :: outer) (rest1.map Prod.fst) ∧
      rest1.length ≤ rest0.length ∧
      (∀ p ∈ PRE1, ∀ q ∈ (rest1.map Prod.fst).head?, q < p) ∧
      (PRE1 = [] → ∀ q ∈ (rest1.map Prod.fst).head?, q ≤ ind) := by
  rcases rest0 with _ | ⟨⟨j, u⟩, tl⟩
  · simp only [parseKids, Except.ok.injEq, Prod.mk.injEq] at hk
    obtain ⟨-, hk2⟩ := hk
    refine ⟨[], by simp, ?_, ?_, by simp [← hk2], by simp [← hk2]⟩
    · rw [← hk2, List.map_nil, levelsOk_nil, levelsOk_nil]
    · rw [← hk2]
  · simp only [parseKids] at hk
    by_cases hj : ind < j
    · rw [if_pos hj] at hk
      have hIH := ihok ((j, u) :: tl) j (ind :: outer) [] kids rest1 hlen
        (by
          intro o hoo
          rcases List.mem_cons.mp hoo with rfl | h2
          · exact hj
          · exact lt_trans (ho o h2) hj)
        (by simp) hk
      rw [List.nil_append, List.map_cons] at hIH
      dsimp only at hIH
      rw [levelsOk_same_level] at hIH
      have hhd := parseSibF_rest_head fuel j ((j, u) :: tl) kids rest1 hk
      refine ⟨[j], by simp [hj], ?_,
        parseSibF_rest_length fuel j _ kids rest1 hk, ?_, by simp⟩
      · rw [List.map_cons]
        dsimp only
        rw [levelsOk_push ind outer j _ hj]
        rw [List.cons_append, List.nil_append]
        exact hIH
      · intro p hp2 q hq
        rcases List.mem_cons.mp hp2 with rfl | h2
        · rcases hhd with rfl | ⟨j2, u2, tl2, heq2, hj2⟩
          · simp at hq
          · rw [heq2, List.map_cons] at hq
            dsimp only at hq
            simp only [List.head?_cons, Option.mem_def, Option.some.injEq] at hq
            omega
        · simp at h2
    · rw [if_neg hj] at hk
      simp only [Except.ok.injEq, Prod.mk.injEq] at hk
      obtain ⟨-, hk2⟩ := hk
      refine ⟨[], by simp, ?_, ?_, by simp, ?_⟩
      · rw [← hk2, List.nil_append]
      · rw [← hk2]
      · intro _ q hq
        rw [← hk2, List.map_cons] at hq
        dsimp only at hq
        simp only [List.head?_cons, Option.mem_def, Option.some.injEq] at hq
        omega

theorem parseSibF_levels_ok : ∀ (fuel : Nat) (ls : List (Nat × List Char))
    (ind : Nat) (outer pre : List Nat) (ns : ConfigTree)
    (rest : List (Nat × List Char)),
    ls.length < fuel →
    (∀ o ∈ outer, o < ind) →
    (∀ p ∈ pre, ind < p) →
    parseSibF fuel ind ls = .ok (ns, rest) →
    levelsOk (pre ++ ind :: outer) (ls.map Prod.fst) =
      levelsOk (pre ++ ind :: outer) (rest.map Prod.fst) := by
  intro fuel
  induction fuel with
  | zero =>
    intro ls ind outer pre ns rest hlen _ _ _
    omega
  | succ fuel ih =>
    intro ls ind outer pre ns rest hlen ho hp hok
    rcases ls with _ | ⟨⟨i, t⟩, rest0⟩
    · rw [parseSibF] at hok
      simp only [Except.ok.injEq, Prod.mk.injEq] at hok
      obtain ⟨-, h2⟩ := hok
      rw [← h2]
    · rw [parseSibF] at hok
      by_cases hlt : i < ind
      · rw [if_pos hlt] at hok
        simp only [Except.ok.injEq, Prod.mk.injEq] at hok
        obtain ⟨-, h2⟩ := hok
        rw [← h2]
      · rw [if_neg hlt] at hok
        by_cases hgt : ind < i
        · rw [if_pos hgt] at hok
          exact Except.noConfusion hok
        · rw [if_neg hgt] at hok
          obtain rfl : i = ind := by omega
          cases hk : parseKids (parseSibF fuel) i rest0 with
          | error e =>
            rw [hk] at hok
            exact Except.noConfusion hok
          | ok pr =>
            obtain ⟨kids, rest1⟩ := pr
            rw [hk] at hok
            dsimp only at hok
            cases hs : parseSibF fuel i rest1 with
            | error e =>
              rw [hs] at hok
              exact Except.noConfusion hok
            | ok pr2 =>
              obtain ⟨sibs, rest2⟩ := pr2
              rw [hs] at hok
              dsimp only at hok
              simp only [Except.ok.injEq, Prod.mk.injEq] at hok
              obtain ⟨-, hrr⟩ := hok
              have hlen0 : rest0.length < fuel := by
                simp only [List.length_cons] at hlen
                omega
              obtain ⟨PRE1, hPRE1, hmid1, hlen1, -, -⟩ :=
                parseKids_levels fuel i outer rest0 kids rest1 ih hlen0 ho hk
              have hlen2 : rest1.length < fuel := by omega
              have hsibIH := ih rest1 i outer PRE1 sibs rest2 hlen2 ho hPRE1 hs
              have hhd := parseSibF_rest_head fuel i rest1 sibs rest2 hs
              have hfinal :
                  levelsOk (PRE1 ++ i :: outer) (rest2.map Prod.fst) =
                    levelsOk (pre ++ i :: outer) (rest2.map Prod.fst) := by
                rcases hhd with rfl | ⟨j2, u2, tl2, heq2, hj2⟩
                · rw [List.map_nil, levelsOk_nil, levelsOk_nil]
                · rw [heq2, List.map_cons]
                  dsimp only
                  rw [levelsOk_skip PRE1 i outer j2 _
                    (fun p hp2 => lt_trans hj2 (hPRE1 p hp2)) (le_of_lt hj2)]
                  rw [levelsOk_skip pre i outer j2 _
                    (fun p hp2 => lt_trans hj2 (hp p hp2)) (le_of_lt hj2)]
              rw [← hrr, List.map_cons]
              dsimp only
              rw [levelsOk_skip pre i outer i _ hp (le_refl i),
                levelsOk_same_level, hmid1, hsibIH, hfinal]

theorem parseSibF_levels_error : ∀ (fuel : Nat) (ls : List (Nat × List Char))
    (ind : Nat) (outer pre : List Nat) (e : ParseError),
    ls.length < fuel →
    (∀ o ∈ outer, o < ind) →
    (∀ p ∈ pre, ind < p) →
    (∀ p ∈ pre, ∀ q ∈ (ls.map Prod.fst).head?, q < p) →
    (pre = [] → ∀ q ∈ (ls.map Prod.fst).head?, q ≤ ind) →
    parseSibF fuel ind ls = .error e →
    levelsOk (pre ++ ind :: outer) (ls.map Prod.fst) = false := by
  intro fuel
  induction fuel with
  | zero =>
    intro ls ind outer pre e hlen _ _ _ _ _
    omega
  | succ fuel ih =>
    intro ls ind outer pre e hlen ho hp hph hpe herr
    rcases ls with _ | ⟨⟨i, t⟩, rest0⟩
    · rw [parseSibF] at herr
      exact Except.noConfusion herr
    · rw [parseSibF] at herr
      by_cases hlt : i < ind
      · rw [if_pos hlt] at herr
        exact Except.noConfusion herr
      · rw [if_neg hlt] at herr
        by_cases hgt : ind < i
        · rcases pre with _ | ⟨p0, pre2⟩
          · have hle := hpe rfl i (by simp)
            omega
          · have hip0 : i < p0 := hph p0 (by simp) i (by simp)
            rw [List.cons_append, List.map_cons]
            dsimp only
            rw [levelsOk_if_form p0 _ i _ (by omega)]
            have hcf : ((p0 :: (pre2 ++ ind :: outer)).contains i) = false := by
              apply nat_contains_eq_false
              intro x hx
              rcases List.mem_cons.mp hx with rfl | hx2
              · omega
              · rcases List.mem_append.mp hx2 with hx3 | hx4
                · have := hph x (by simp [hx3]) i (by simp)
                  omega
                · rcases List.mem_cons.mp hx4 with rfl | hx5
                  · omega
                  · have := ho x hx5
                    omega
            rw [hcf]
            simp
        · rw [if_neg hgt] at herr
          obtain rfl : i = ind := by omega
          cases hk : parseKids (parseSibF fuel) i rest0 with
          | error e2 =>
            rw [hk] at herr
            rcases rest0 with _ | ⟨⟨j, u⟩, tl⟩
            · simp only [parseKids] at hk
              exact Except.noConfusion hk
            · simp only [parseKids] at hk
              by_cases hj : i < j
              · rw [if_pos hj] at hk
                have hlen1 : ((j, u) :: tl).length < fuel := by
                  simp only [List.length_cons] at hlen ⊢
                  omega
                have hIH := ih ((j, u) :: tl) j (i :: outer) [] e2 hlen1
                  (by
                    intro o hoo
                    rcases List.mem_cons.mp hoo with rfl | h2
                    · exact hj
                    · exact lt_trans (ho o h2) hj)
                  (by simp)
                  (by simp)
                  (by
                    intro _ q hq
                    simp only [List.map_cons, List.head?_cons,
                      Option.mem_def, Option.some.injEq] at hq
                    omega)
                  hk
                rw [List.nil_append, List.map_cons] at hIH
                dsimp only at hIH
                rw [levelsOk_same_level] at hIH
                rw [List.map_cons, List.map_cons]
                dsimp only
                rw [levelsOk_skip pre i outer i _ hp (le_refl i),
                  levelsOk_same_level, levelsOk_push i outer j _ hj]
                exact hIH
              · rw [if_neg hj] at hk
                exact Except.noConfusion hk
          | ok pr =>
            obtain ⟨kids, rest1⟩ := pr
            rw [hk] at herr
            dsimp only at herr
            cases hs : parseSibF fuel i rest1 with
            | error e3 =>
              have hlen0 : rest0.length < fuel := by
                simp only [List.length_cons] at hlen
                omega
              obtain ⟨PRE1, hPRE1, hmid1, hlen1, hh1, hh2⟩ :=
                parseKids_levels fuel i outer rest0 kids rest1
                  (parseSibF_levels_ok fuel) hlen0 ho hk
              have hlen2 : rest1.length < fuel := by omega
              have hIH := ih rest1 i outer PRE1 e3 hlen2 ho hPRE1 hh1 hh2 hs
              rw [List.map_cons]
              dsimp only
              rw [levelsOk_skip pre i outer i _ hp (le_refl i),
                levelsOk_same_level, hmid1]
              exact hIH
            | ok pr2 =>
              obtain ⟨sibs, rest2⟩ := pr2
              rw [hs] at herr
              dsimp only at herr
              exact Except.noConfusion herr

/-! ## Claim theorems -/

/-- C1: for every actual configuration and every feature, evaluating with an
empty (absent) intended configuration returns `compliant = none` (unknown)
with both missing and extra empty, and the tri-state compliant value is
carried unchanged into the persisted `ConfigCompliance.compliance` column
(`models.BooleanField(null=True)`). -/
theorem c1_unknown_state_empty_intended (actual : String) (f : FeatureSpec)
    (dev feat slug : String) (r : ComplianceResult) :
    evaluate actual "" f =
      .ok ⟨none, [], [], actual, ""⟩ ∧
    (flattenResult dev feat slug f r).compliance = r.compliant :=
  ⟨by simp [evaluate], rfl⟩

/-- C2: the equality flag of `diffTrees` is true exactly when the returned
missing and extra trees hold zero nodes, and it coincides with the spec's
recursive tree equality under the same ordering rule. -/
theorem c2_equal_iff_empty_missing_extra (a b : ConfigTree) (ordered : Bool) :
    ((diffTrees a b ordered).1 = true ↔
      (diffTrees a b ordered).2.1 = [] ∧ (diffTrees a b ordered).2.2 = []) ∧
    (diffTrees a b ordered).1 = treesEqual ordered a b := by
  cases ordered
  · constructor
    · simp [diffTrees, List.isEmpty_iff]
    · simp only [diffTrees, if_neg (by simp : ¬(false = true)), treesEqual]
      have hiff := eqU_iff_missing a b
      cases heq : eqU a b with
      | true =>
        obtain ⟨h1, h2⟩ := hiff.mp heq
        simp [h1, h2]
      | false =>
        rw [heq] at hiff
        simp only [Bool.false_eq_true, false_iff] at hiff
        cases hm : missingOf a b with
        | nil =>
          cases he : missingOf b a with
          | nil => exact absurd ⟨hm, he⟩ hiff
          | cons hh tt => simp
        | cons hh tt => simp
  · constructor
    · simp [diffTrees, List.isEmpty_iff]
    · simp only [diffTrees, if_pos rfl, treesEqual]
      cases hfe : forestEq a b with
      | true =>
        have hab : a = b := (forestEq_iff a b).mp hfe
        obtain ⟨h1, h2⟩ := (trimBoth_nil_iff a b).mpr hab
        simp [h1, h2]
      | false =>
        have hab : a ≠ b := fun h => by
          rw [(forestEq_iff a b).mpr h] at hfe
          cases hfe
        have hni := fun h => hab ((trimBoth_nil_iff a b).mp h)
        cases hm : (trimBoth a b).1 with
        | nil =>
          cases he : (trimBoth a b).2 with
          | nil => exact absurd ⟨hm, he⟩ hni
          | cons hh tt => simp [he]
        | cons hh tt => simp [hm]

/-- C2 witness: the equivalence at a concrete input. -/
theorem c2_equal_iff_empty_missing_extra_witness :
    ((diffTrees [ConfigNode.node ['a'] []] [] false).1 = true ↔
      (diffTrees [ConfigNode.node ['a'] []] [] false).2.1 = [] ∧
      (diffTrees [ConfigNode.node ['a'] []] [] false).2.2 = []) ∧
    (diffTrees [ConfigNode.node ['a'] []] [] false).1 =
      treesEqual false [ConfigNode.node ['a'] []] [] :=
  c2_equal_iff_empty_missing_extra [ConfigNode.node ['a'] []] [] false

/-- C3: the spec's concrete unordered scenario. With actual
`"ntp server 1.1.1.1\nntp server 2.2.2.2\n"` and intended
`"ntp server 2.2.2.2\nntp server 3.3.3.3\n"`, feature match `"ntp"`,
unordered, evaluation succeeds with `compliant = some false`, the missing
tree renders to `"ntp server 3.3.3.3\n"`, and the extra tree renders to
`"ntp server 1.1.1.1\n"`. -/
theorem c3_unordered_ntp_scenario :
    (evaluate "ntp server 1.1.1.1\nntp server 2.2.2.2\n"
        "ntp server 2.2.2.2\nntp server 3.3.3.3\n"
        ⟨"ntp", "cisco_ios", "ntp", false⟩).map
      (fun r => (r.compliant, render r.missing_tree, render r.extra_tree)) =
      .ok (some false, "ntp server 3.3.3.3\n", "ntp server 1.1.1.1\n") := by
  decide

/-- C4: reflexivity of the differ. Diffing any tree against itself, under
either ordering mode, yields the true flag and empty missing and extra
trees. -/
theorem c4_diff_reflexive (t : ConfigTree) (ordered : Bool) :
    diffTrees t t ordered = (true, [], []) := by
  cases ordered
  · simp [diffTrees, missingOf_self]
  · simp [diffTrees, trimBoth_self]

/-- C5: symmetry of the differ. Swapping the actual and intended inputs
swaps the missing and extra outputs and leaves the equality flag
unchanged. -/
theorem c5_diff_symmetric (a b : ConfigTree) (ordered : Bool) :
    diffTrees b a ordered =
      ((diffTrees a b ordered).1,
        (diffTrees a b ordered).2.2, (diffTrees a b ordered).2.1) := by
  cases ordered
  · simp [diffTrees, Bool.and_comm]
  · simp [diffTrees, trimBoth_swap a b, Bool.and_comm]

/-- C8: determinism of evaluation. The engine is embedded as a pure
function of its inputs, so two invocations of `evaluate` on identical
inputs return bit-identical results, including identical errors. -/
theorem c8_evaluate_deterministic (a i : String) (f : FeatureSpec) :
    evaluate a i f = evaluate a i f := rfl

/-- C9: `GoldenConfigSettings.delete` performs no deletion. For any
settings table, receiver instance and arguments, the table and the
instance, with every one of its fields, are unchanged. -/
theorem c9_settings_delete_noop (table : List GoldenConfigSettings)
    (s : GoldenConfigSettings) (args : List String)
    (kwargs : List (String × String)) :
    GoldenConfigSettings.delete table s args kwargs = (table, s) ∧
    (GoldenConfigSettings.delete table s args kwargs).2.backup_path_template =
      s.backup_path_template ∧
    (GoldenConfigSettings.delete table s args kwargs).2.intended_path_template =
      s.intended_path_template ∧
    (GoldenConfigSettings.delete table s args kwargs).2.jinja_path_template =
      s.jinja_path_template ∧
    (GoldenConfigSettings.delete table s args kwargs).2.backup_test_connectivity =
      s.backup_test_connectivity ∧
    (GoldenConfigSettings.delete table s args kwargs).2.shorten_sot_query =
      s.shorten_sot_query ∧
    (GoldenConfigSettings.delete table s args kwargs).2.sot_agg_query =
      s.sot_agg_query :=
  ⟨rfl, rfl, rfl, rfl, rfl, rfl, rfl⟩

/-- C10: changelog redaction noninterference. Two `ConfigCompliance` rows
that differ only in `actual` and `intended` produce changelog entries with
identical `object_data`; two `GoldenConfiguration` rows that differ only in
`backup_config`, `intended_config` and `compliance_config` likewise. -/
theorem c10_changelog_redaction :
    (∀ (a b : ConfigCompliance) (act : String),
      a.device = b.device → a.feature = b.feature → a.slug = b.slug →
      a.compliance = b.compliance → a.missing = b.missing →
      a.extra = b.extra → a.ordered = b.ordered →
      (a.to_objectchange act).object_data = (b.to_objectchange act).object_data) ∧
    (∀ (g h : GoldenConfiguration) (act : String),
      g.device = h.device →
      g.backup_last_attempt_date = h.backup_last_attempt_date →
      g.backup_last_success_date = h.backup_last_success_date →
      g.intended_last_attempt_date = h.intended_last_attempt_date →
      g.intended_last_success_date = h.intended_last_success_date →
      g.compliance_last_attempt_date = h.compliance_last_attempt_date →
      g.compliance_last_success_date = h.compliance_last_success_date →
      (g.to_objectchange act).object_data = (h.to_objectchange act).object_data) := by
  constructor
  · intro a b act h1 h2 h3 h4 h5 h6 h7
    cases a
    cases b
    simp only at h1 h2 h3 h4 h5 h6 h7
    subst h1
    subst h2
    subst h3
    subst h4
    subst h5
    subst h6
    subst h7
    rfl
  · intro g h act h1 h2 h3 h4 h5 h6 h7
    cases g
    cases h
    simp only at h1 h2 h3 h4 h5 h6 h7
    subst h1
    subst h2
    subst h3
    subst h4
    subst h5
    subst h6
    subst h7
    rfl

/-- C10 witness: concrete rows differing only in the redacted fields. -/
theorem c10_changelog_redaction_witness :
    ((⟨"dev1", "ntp", "dev1-ntp", some true, "actual one", "intended one",
        "", "", true⟩ : ConfigCompliance).to_objectchange "update").object_data =
      ((⟨"dev1", "ntp", "dev1-ntp", some true, "actual two", "intended two",
        "", "", true⟩ : ConfigCompliance).to_objectchange "update").object_data ∧
    ((⟨"dev1", "backup one", none, none, "intended one", none, none,
        "diff one", none, none⟩ : GoldenConfiguration).to_objectchange
        "update").object_data =
      ((⟨"dev1", "backup two", none, none, "intended two", none, none,
        "diff two", none, none⟩ : GoldenConfiguration).to_objectchange
        "update").object_data :=
  ⟨c10_changelog_redaction.1 _ _ "update" rfl rfl rfl rfl rfl rfl rfl,
    c10_changelog_redaction.2 _ _ "update" rfl rfl rfl rfl rfl rfl rfl⟩

/-- C6: round-trip of the renderer after the parser. For any forest whose
rendered text already uses the canonical indentation unit (equivalently, a
clean forest: non-blank, trimmed, newline-free node texts) and whose
top-level directives all start with the feature match string, parsing the
rendered text returns exactly that forest, so re-rendering reproduces the
text verbatim. -/
theorem c6_render_parse_round_trip (ns : ConfigTree) (mc : String)
    (hclean : cleanForest ns = true)
    (hmatch : ∀ n ∈ ns, hasPref mc.data n.txt = true) :
    parse (render ns) mc = .ok ns ∧
    (parse (render ns) mc).map render = .ok (render ns) := by
  have hcl : ∀ p ∈ renderLinesF 0 ns, cleanLine p.2 = true := by
    rw [cleanForest] at hclean
    intro p hp
    simpa using List.all_eq_true.mp hclean p hp
  have hparse : buildForest (render ns).data = .ok ns := by
    show buildFromLines (toLines (unlines (renderLinesF 0 ns))) = .ok ns
    rw [toLines_unlines _ hcl]
    rcases ns with _ | ⟨n, ns2⟩
    · rw [renderLinesF_nil]
      rfl
    · cases n with
      | node t k =>
        have haux := parse_render_aux
          ((renderLinesF (0 + 1) k ++ renderLinesF 0 ns2).length + 2)
          (ConfigNode.node t k :: ns2) 0 []
          (by
            rw [List.append_nil, renderLinesF_cons]
            simp [List.length_append])
          hcl (Or.inl rfl)
        rw [List.append_nil, renderLinesF_cons] at haux
        rw [renderLinesF_cons, buildFromLines, haux]
  have h1 : parse (render ns) mc = .ok ns := by
    simp only [parse]
    rw [hparse]
    dsimp only
    rw [List.filter_eq_self.mpr hmatch]
  exact ⟨h1, by rw [h1]; rfl⟩

/-- C6 witness: the round-trip at the spec's canonical BGP example. -/
theorem c6_render_parse_round_trip_witness :
    parse (render [ConfigNode.node "router bgp 1".data
        [ConfigNode.node "address-family ipv4".data []]]) "router bgp" =
      .ok [ConfigNode.node "router bgp 1".data
        [ConfigNode.node "address-family ipv4".data []]] ∧
    (parse (render [ConfigNode.node "router bgp 1".data
        [ConfigNode.node "address-family ipv4".data []]]) "router bgp").map
        render =
      .ok (render [ConfigNode.node "router bgp 1".data
        [ConfigNode.node "address-family ipv4".data []]]) :=
  c6_render_parse_round_trip _ "router bgp" (by decide) (by decide)

theorem levelsOk_start (i : Nat) (xs : List Nat) :
    levelsOk [] (i :: xs) = levelsOk [i] xs := by
  rw [levelsOk]

/-- C7: error contract of the parser. Parsing succeeds exactly when the raw
text has structurally consistent indentation (every dedent lands exactly on
an open level, as checked by the independent `levelsOk` stack walk), and
with consistent indentation but no matching top-level line, `parse` returns
the empty tree rather than an error. -/
theorem c7_parse_error_iff_inconsistent (raw mc : String) :
    (isOkE (parse raw mc) = consistentIndent raw) ∧
    (∀ ns, buildForest raw.data = .ok ns →
      (∀ n ∈ ns, hasPref mc.data n.txt = false) → parse raw mc = .ok []) := by
  constructor
  · have hsame : isOkE (parse raw mc) =
        isOkE (buildFromLines (toLines raw.data)) := by
      simp only [parse, buildForest]
      cases buildFromLines (toLines raw.data) <;> rfl
    rw [hsame, consistentIndent]
    generalize toLines raw.data = L
    rcases L with _ | ⟨⟨i, t⟩, rest⟩
    · rfl
    · have hbridge : levelsOk [] (((i, t) :: rest).map Prod.fst) =
          levelsOk [i] (((i, t) :: rest).map Prod.fst) := by
        rw [List.map_cons]
        dsimp only
        rw [levelsOk_start, levelsOk_same_level]
      rw [buildFromLines]
      cases hps : parseSibF (rest.length + 2) i ((i, t) :: rest) with
      | error e =>
        have hLerr := parseSibF_levels_error (rest.length + 2)
          ((i, t) :: rest) i [] [] e
          (by simp only [List.length_cons]; omega)
          (by simp) (by simp) (by simp)
          (by
            intro _ q hq
            simp only [List.map_cons, List.head?_cons, Option.mem_def,
              Option.some.injEq] at hq
            omega)
          hps
        rw [List.nil_append] at hLerr
        dsimp only
        rw [hbridge, hLerr]
        rfl
      | ok pr =>
        obtain ⟨ns, rest2⟩ := pr
        have hLok := parseSibF_levels_ok (rest.length + 2)
          ((i, t) :: rest) i [] [] ns rest2
          (by simp only [List.length_cons]; omega)
          (by simp) (by simp) hps
        rw [List.nil_append] at hLok
        have hhd := parseSibF_rest_head (rest.length + 2) i
          ((i, t) :: rest) ns rest2 hps
        rcases rest2 with _ | ⟨⟨j, u⟩, tl⟩
        · dsimp only
          rw [hbridge, hLok, List.map_nil, levelsOk_nil]
          rfl
        · dsimp only
          rw [hbridge, hLok]
          rcases hhd with h0 | ⟨j2, u2, tl2, heq, hj2⟩
          · exact absurd h0 (by simp)
          · simp only [List.cons.injEq, Prod.mk.injEq] at heq
            obtain ⟨⟨rfl, -⟩, -⟩ := heq
            rw [List.map_cons]
            dsimp only
            rw [levelsOk_if_form i [] j _ (by omega)]
            have hcf : (([i] : List Nat).contains j) = false := by
              apply nat_contains_eq_false
              intro x hx
              simp at hx
              omega
            rw [hcf]
            simp [isOkE]
  · intro ns hb hnm
    simp only [parse]
    rw [hb]
    dsimp only
    rw [List.filter_eq_nil_iff.mpr fun a ha h => by
      rw [hnm a ha] at h
      exact absurd h (by simp)]

/-- C7 witness: a consistent text with no matching top-level line parses to
the empty tree, and ok-ness coincides with the consistency check. -/
theorem c7_parse_error_iff_inconsistent_witness :
    (isOkE (parse "ntp server 1.1.1.1\n" "snmp") =
      consistentIndent "ntp server 1.1.1.1\n") ∧
    parse "ntp server 1.1.1.1\n" "snmp" = .ok [] :=
  ⟨(c7_parse_error_iff_inconsistent "ntp server 1.1.1.1\n" "snmp").1,
    (c7_parse_error_iff_inconsistent "ntp server 1.1.1.1\n" "snmp").2
      [ConfigNode.node "ntp server 1.1.1.1".data []] (by decide) (by decide)⟩

end GoldenConfig
